import Mathlib

set_option maxHeartbeats 1000000

namespace ColorChain

/-- The five tile colours of the palette (COLOURS in script.js). -/
inductive Colour
  | red | blue | yellow | green | purple
deriving DecidableEq, Fintype, Repr

/-- A cell of the board: a colour, or none (JS null, an Empty cell after a clear). -/
abbrev Cell := Option Colour

/-- A board position (row, col), 0-indexed within the 6 by 6 grid. -/
abbrev Pos := Fin 6 × Fin 6

/-- The game board: a 6 by 6 matrix of cells (the board variable in script.js). -/
abbrev Board := Fin 6 → Fin 6 → Cell

/-- JavaScript Math.round on exact rationals: round half toward positive infinity. -/
def jsRound (q : ℚ) : ℤ := ⌊q + 1 / 2⌋

/-- Shallow embedding of calculateScore (script.js), with JS number arithmetic
modelled exactly over the rationals (the literal 0.15 as 15/100). -/
def calculateScore (length turns multiplier : ℕ) : ℤ :=
  let base : ℚ := length * length * 10
  let turnBonus : ℚ := base * (15 / 100) * turns
  jsRound ((base + turnBonus) * multiplier)

/-- C1: for all non-negative integers length, turns, multiplier, calculateScore
returns round((length·length·10 + length·length·10·0.15·turns)·multiplier);
it is a pure function of its arguments, and in particular
calculateScore(3,0,1)=90, calculateScore(5,0,1)=250, calculateScore(5,2,1)=325,
and calculateScore(5,0,2)=500. -/
theorem calculateScore_spec :
    (∀ length turns multiplier : ℕ,
      calculateScore length turns multiplier =
        jsRound (((length : ℚ) * length * 10 +
          (length : ℚ) * length * 10 * (15 / 100) * turns) * multiplier)) ∧
    calculateScore 3 0 1 = 90 ∧ calculateScore 5 0 1 = 250 ∧
    calculateScore 5 2 1 = 325 ∧ calculateScore 5 0 2 = 500 := by
  refine ⟨fun l t m => rfl, ?_, ?_, ?_, ?_⟩ <;>
    norm_num [calculateScore, jsRound]

/-- The four scan directions of the flood fill (dirs in script.js). -/
def dirs : List (ℤ × ℤ) := [(1, 0), (-1, 0), (0, 1), (0, -1)]

/-- Interpret integer coordinates as a board position when in bounds,
mirroring the bounds check of the BFS in hasAvailableMoves. -/
def toPos? (r c : ℤ) : Option Pos :=
  if h : 0 ≤ r ∧ r < 6 ∧ 0 ≤ c ∧ c < 6 then
    some (⟨r.toNat, by omega⟩, ⟨c.toNat, by omega⟩)
  else none

/-- The in-bounds 4-neighbours of a position, in the scan order of script.js. -/
def neighbors (p : Pos) : List Pos :=
  dirs.filterMap fun d => toPos? ((p.1.val : ℤ) + d.1) ((p.2.val : ℤ) + d.2)

/-- One iteration of the inner neighbour loop of the BFS in hasAvailableMoves:
skip visited cells, mark and enqueue cells holding the seed value. -/
def visitStep (g : Board) (colour : Cell) (vq : Finset Pos × List Pos) (n : Pos) :
    Finset Pos × List Pos :=
  if n ∈ vq.1 then vq
  else if g n.1 n.2 = colour then (insert n vq.1, vq.2 ++ [n]) else vq

/-- Fuelled embedding of the BFS while loop of hasAvailableMoves: pop the queue
head, count it, visit its neighbours; return the count and final visited set. -/
def bfs (g : Board) (colour : Cell) :
    ℕ → List Pos → Finset Pos → ℕ → ℕ × Finset Pos
  | 0, _, visited, count => (count, visited)
  | _ + 1, [], visited, count => (count, visited)
  | fuel + 1, p :: rest, visited, count =>
    let vq := (neighbors p).foldl (visitStep g colour) (visited, [])
    bfs g colour fuel (rest ++ vq.2) vq.1 (count + 1)

/-- Row-major list of all positions, the scan order of the outer loops of
hasAvailableMoves. -/
def allPositions : List Pos :=
  (List.finRange 6).flatMap fun r => (List.finRange 6).map fun c => (r, c)

/-- The outer scan of hasAvailableMoves over the remaining cells, with the
visited set shared between the per-seed BFS runs. -/
def scanMoves (g : Board) : List Pos → Finset Pos → Bool
  | [], _ => false
  | p :: rest, visited =>
    if p ∈ visited then scanMoves g rest visited
    else
      let res := bfs g (g p.1 p.2) 100 [p] (insert p visited) 0
      if 3 ≤ res.1 then true else scanMoves g rest res.2

/-- Embedding of hasAvailableMoves (script.js): true iff the flood-fill scan
finds a same-valued 4-connected component of size at least 3. -/
def hasAvailableMoves (g : Board) : Bool :=
  scanMoves g allPositions ∅

/-- One same-valued 4-adjacency step: q is an in-bounds 4-neighbour of p and
its cell holds the value v. -/
def SameStep (g : Board) (v : Cell) (p q : Pos) : Prop :=
  q ∈ neighbors p ∧ g q.1 q.2 = v

/-- Connectivity through same-valued cells: x is reachable from s by 4-adjacent
steps onto cells all holding the value v. -/
def ConnV (g : Board) (v : Cell) (s x : Pos) : Prop :=
  Relation.ReflTransGen (SameStep g v) s x

/-- The 4-connected component of cells sharing the value of the cell at s. -/
def component (g : Board) (s : Pos) : Set Pos :=
  {x | ConnV g (g s.1 s.2) s x}

lemma neighbors_symm : ∀ p q : Pos, q ∈ neighbors p → p ∈ neighbors q := by
  decide

lemma connV_val {g : Board} {v : Cell} {s x : Pos} (h : ConnV g v s x) :
    g x.1 x.2 = v ∨ x = s := by
  induction h with
  | refl => exact Or.inr rfl
  | tail _ hstep _ => exact Or.inl hstep.2

lemma connV_symm {g : Board} {v : Cell} {s x : Pos} (hs : g s.1 s.2 = v)
    (h : ConnV g v s x) : ConnV g v x s := by
  induction h with
  | refl => exact Relation.ReflTransGen.refl
  | tail hxy hstep ih =>
    refine Relation.ReflTransGen.head ?_ ih
    refine ⟨neighbors_symm _ _ hstep.1, ?_⟩
    rcases connV_val hxy with hv | rfl
    · exact hv
    · exact hs

lemma self_mem_component (g : Board) (s : Pos) : s ∈ component g s :=
  Relation.ReflTransGen.refl

lemma mem_component_val {g : Board} {s x : Pos} (h : x ∈ component g s) :
    g x.1 x.2 = g s.1 s.2 := by
  rcases connV_val h with hv | rfl
  · exact hv
  · rfl

lemma component_eq_of_mem {g : Board} {s x : Pos} (h : x ∈ component g s) :
    component g x = component g s := by
  have hval : g x.1 x.2 = g s.1 s.2 := mem_component_val h
  ext y
  constructor
  · intro hy
    exact Relation.ReflTransGen.trans h (hval ▸ hy)
  · intro hy
    have hxs : ConnV g (g s.1 s.2) x s := connV_symm rfl h
    have : ConnV g (g s.1 s.2) x y := Relation.ReflTransGen.trans hxs hy
    simpa [component, ConnV, hval] using this

section VisitFold

variable (g : Board) (colour : Cell)

lemma visitStep_fst_subset (vq : Finset Pos × List Pos) (n : Pos) :
    vq.1 ⊆ (visitStep g colour vq n).1 := by
  unfold visitStep
  split_ifs <;> simp [Finset.subset_insert]

lemma foldl_visit_fst_subset :
    ∀ (l : List Pos) (vq : Finset Pos × List Pos),
      vq.1 ⊆ (l.foldl (visitStep g colour) vq).1
  | [], _ => Finset.Subset.refl _
  | n :: l, vq =>
    (visitStep_fst_subset g colour vq n).trans
      (foldl_visit_fst_subset l (visitStep g colour vq n))

lemma visitStep_card (vq : Finset Pos × List Pos) (n : Pos) :
    (visitStep g colour vq n).1.card + vq.2.length =
      vq.1.card + (visitStep g colour vq n).2.length := by
  unfold visitStep
  split_ifs with h1 h2
  · rfl
  · simp only [Finset.card_insert_of_not_mem h1, List.length_append,
      List.length_singleton]
    omega
  · rfl

lemma foldl_visit_card :
    ∀ (l : List Pos) (vq : Finset Pos × List Pos),
      (l.foldl (visitStep g colour) vq).1.card + vq.2.length =
        vq.1.card + (l.foldl (visitStep g colour) vq).2.length
  | [], _ => rfl
  | n :: l, vq => by
    have h1 := visitStep_card g colour vq n
    have h2 := foldl_visit_card l (visitStep g colour vq n)
    simp only [List.foldl_cons]
    omega

lemma visitStep_snd_mem {vq : Finset Pos × List Pos} {n x : Pos}
    (h : x ∈ (visitStep g colour vq n).2) :
    x ∈ vq.2 ∨ (x = n ∧ g n.1 n.2 = colour) := by
  unfold visitStep at h
  split_ifs at h with h1 h2
  · exact Or.inl h
  · rcases List.mem_append.mp h with hx | hx
    · exact Or.inl hx
    · exact Or.inr ⟨List.mem_singleton.mp hx, h2⟩
  · exact Or.inl h

lemma foldl_visit_snd_mem :
    ∀ (l : List Pos) (vq : Finset Pos × List Pos) (x : Pos),
      x ∈ (l.foldl (visitStep g colour) vq).2 →
      x ∈ vq.2 ∨ (x ∈ l ∧ g x.1 x.2 = colour)
  | [], _, _, h => Or.inl h
  | n :: l, vq, x, h => by
    rcases foldl_visit_snd_mem l (visitStep g colour vq n) x h with hx | hx
    · rcases visitStep_snd_mem g colour hx with hx | ⟨rfl, hc⟩
      · exact Or.inl hx
      · exact Or.inr ⟨List.mem_cons_self _ _, hc⟩
    · exact Or.inr ⟨List.mem_cons_of_mem _ hx.1, hx.2⟩

lemma visitStep_fst_mem {vq : Finset Pos × List Pos} {n x : Pos}
    (h : x ∈ (visitStep g colour vq n).1) :
    x ∈ vq.1 ∨ (x = n ∧ g n.1 n.2 = colour) := by
  unfold visitStep at h
  split_ifs at h with h1 h2
  · exact Or.inl h
  · rcases Finset.mem_insert.mp h with hx | hx
    · exact Or.inr ⟨hx, h2⟩
    · exact Or.inl hx
  · exact Or.inl h

lemma foldl_visit_fst_mem :
    ∀ (l : List Pos) (vq : Finset Pos × List Pos) (x : Pos),
      x ∈ (l.foldl (visitStep g colour) vq).1 →
      x ∈ vq.1 ∨ (x ∈ l ∧ g x.1 x.2 = colour)
  | [], _, _, h => Or.inl h
  | n :: l, vq, x, h => by
    rcases foldl_visit_fst_mem l (visitStep g colour vq n) x h with hx | hx
    · rcases visitStep_fst_mem g colour hx with hx | ⟨rfl, hc⟩
      · exact Or.inl hx
      · exact Or.inr ⟨List.mem_cons_self _ _, hc⟩
    · exact Or.inr ⟨List.mem_cons_of_mem _ hx.1, hx.2⟩

lemma visitStep_complete {vq : Finset Pos × List Pos} {n : Pos}
    (hc : g n.1 n.2 = colour) : n ∈ (visitStep g colour vq n).1 := by
  unfold visitStep
  split_ifs with h1
  · exact h1
  · exact Finset.mem_insert_self _ _

lemma foldl_visit_complete :
    ∀ (l : List Pos) (vq : Finset Pos × List Pos) (n : Pos),
      n ∈ l → g n.1 n.2 = colour →
      n ∈ (l.foldl (visitStep g colour) vq).1
  | [], _, _, hn, _ => absurd hn (List.not_mem_nil _)
  | m :: l, vq, n, hn, hc => by
    rcases List.mem_cons.mp hn with rfl | hn
    · exact foldl_visit_fst_subset g colour l _ (visitStep_complete g colour hc)
    · exact foldl_visit_complete l (visitStep g colour vq m) n hn hc

lemma visitStep_snd_mono {vq : Finset Pos × List Pos} {n x : Pos}
    (h : x ∈ vq.2) : x ∈ (visitStep g colour vq n).2 := by
  unfold visitStep
  split_ifs <;> simp [h]

lemma foldl_visit_snd_mono :
    ∀ (l : List Pos) (vq : Finset Pos × List Pos) (x : Pos),
      x ∈ vq.2 → x ∈ (l.foldl (visitStep g colour) vq).2
  | [], _, _, h => h
  | n :: l, vq, x, h =>
    foldl_visit_snd_mono l (visitStep g colour vq n) x
      (visitStep_snd_mono g colour h)

lemma visitStep_fst_new {vq : Finset Pos × List Pos} {n x : Pos}
    (h : x ∈ (visitStep g colour vq n).1) :
    x ∈ vq.1 ∨ x ∈ (visitStep g colour vq n).2 := by
  unfold visitStep at h ⊢
  split_ifs at h ⊢ with h1 h2
  · exact Or.inl h
  · rcases Finset.mem_insert.mp h with rfl | hx
    · simp
    · exact Or.inl hx
  · exact Or.inl h

lemma foldl_visit_fst_new :
    ∀ (l : List Pos) (vq : Finset Pos × List Pos) (x : Pos),
      x ∈ (l.foldl (visitStep g colour) vq).1 →
      x ∈ vq.1 ∨ x ∈ (l.foldl (visitStep g colour) vq).2
  | [], _, _, h => Or.inl h
  | n :: l, vq, x, h => by
    rcases foldl_visit_fst_new l (visitStep g colour vq n) x h with hx | hx
    · rcases visitStep_fst_new g colour hx with hx | hx
      · exact Or.inl hx
      · exact Or.inr (foldl_visit_snd_mono g colour l _ x hx)
    · exact Or.inr hx

end VisitFold

lemma card_univ_pos : (Finset.univ : Finset Pos).card = 36 := by
  simp [Finset.card_univ]

lemma bfs_visited_subset (g : Board) (colour : Cell) :
    ∀ (fuel : ℕ) (queue : List Pos) (visited : Finset Pos) (count : ℕ),
      visited ⊆ (bfs g colour fuel queue visited count).2
  | 0, _, _, _ => Finset.Subset.refl _
  | _ + 1, [], _, _ => Finset.Subset.refl _
  | fuel + 1, p :: rest, visited, count => by
    simp only [bfs]
    exact (foldl_visit_fst_subset g colour (neighbors p) (visited, [])).trans
      (bfs_visited_subset g colour fuel _ _ _)

lemma bfs_count (g : Board) (colour : Cell) :
    ∀ (fuel : ℕ) (queue : List Pos) (visited : Finset Pos) (count : ℕ),
      2 * (Finset.univ \ visited).card + queue.length ≤ fuel →
      (bfs g colour fuel queue visited count).1 + visited.card =
        count + queue.length + (bfs g colour fuel queue visited count).2.card
  | 0, queue, visited, count, hfuel => by
    have : queue.length = 0 := by omega
    simp [bfs, this]
  | _ + 1, [], visited, count, _ => by simp [bfs]
  | fuel + 1, p :: rest, visited, count, hfuel => by
    simp only [bfs]
    set vq := (neighbors p).foldl (visitStep g colour) (visited, []) with hvq
    have hcard : vq.1.card = visited.card + vq.2.length := by
      have := foldl_visit_card g colour (neighbors p) (visited, [])
      simpa using this
    have hle1 : visited.card ≤ 36 := card_univ_pos ▸ Finset.card_le_univ _
    have hle2 : vq.1.card ≤ 36 := card_univ_pos ▸ Finset.card_le_univ _
    have hd1 : (Finset.univ \ visited).card = 36 - visited.card := by
      rw [Finset.card_sdiff (Finset.subset_univ _), card_univ_pos]
    have hd2 : (Finset.univ \ vq.1).card = 36 - vq.1.card := by
      rw [Finset.card_sdiff (Finset.subset_univ _), card_univ_pos]
    have hfuel' :
        2 * (Finset.univ \ vq.1).card + (rest ++ vq.2).length ≤ fuel := by
      simp only [List.length_append]
      simp only [List.length_cons] at hfuel
      omega
    have ih := bfs_count g colour fuel (rest ++ vq.2) vq.1 (count + 1) hfuel'
    simp only [List.length_append] at ih
    simp only [List.length_cons]
    omega

lemma bfs_visited_sound (g : Board) (colour : Cell) (s : Pos) :
    ∀ (fuel : ℕ) (queue : List Pos) (visited : Finset Pos) (count : ℕ),
      (∀ x ∈ queue, ConnV g colour s x) →
      ∀ x ∈ (bfs g colour fuel queue visited count).2,
        x ∈ visited ∨ ConnV g colour s x
  | 0, _, _, _, _, _, hx => Or.inl hx
  | _ + 1, [], _, _, _, _, hx => Or.inl hx
  | fuel + 1, p :: rest, visited, count, hq, x, hx => by
    simp only [bfs] at hx
    set vq := (neighbors p).foldl (visitStep g colour) (visited, []) with hvq
    have hnew : ∀ y ∈ rest ++ vq.2, ConnV g colour s y := by
      intro y hy
      rcases List.mem_append.mp hy with hy | hy
      · exact hq y (List.mem_cons_of_mem _ hy)
      · rcases foldl_visit_snd_mem g colour (neighbors p) (visited, []) y hy with
          hy' | ⟨hn, hc⟩
        · simp at hy'
        · exact (hq p (List.mem_cons_self _ _)).tail ⟨hn, hc⟩
    rcases bfs_visited_sound g colour s fuel (rest ++ vq.2) vq.1 (count + 1)
        hnew x hx with hx' | hx'
    · rcases foldl_visit_fst_mem g colour (neighbors p) (visited, []) x hx' with
        hx'' | ⟨hn, hc⟩
      · exact Or.inl hx''
      · exact Or.inr ((hq p (List.mem_cons_self _ _)).tail ⟨hn, hc⟩)
    · exact Or.inr hx'

/-- The closure invariant of the flood fill: every visited cell of the scanned
value either has all its same-valued neighbours visited already or still waits
in the queue. -/
def ClosedInv (g : Board) (colour : Cell) (queue : List Pos)
    (visited : Finset Pos) : Prop :=
  ∀ x ∈ visited, g x.1 x.2 = colour →
    (∀ n ∈ neighbors x, g n.1 n.2 = colour → n ∈ visited) ∨ x ∈ queue

lemma bfs_closed (g : Board) (colour : Cell) :
    ∀ (fuel : ℕ) (queue : List Pos) (visited : Finset Pos) (count : ℕ),
      2 * (Finset.univ \ visited).card + queue.length ≤ fuel →
      ClosedInv g colour queue visited →
      ∀ x ∈ (bfs g colour fuel queue visited count).2, g x.1 x.2 = colour →
        ∀ n ∈ neighbors x, g n.1 n.2 = colour →
          n ∈ (bfs g colour fuel queue visited count).2
  | 0, queue, visited, count, hfuel, hinv, x, hx, hcx, n, hn, hcn => by
    have hq : queue.length = 0 := by omega
    rw [List.length_eq_zero] at hq
    subst hq
    simp only [bfs] at hx ⊢
    rcases hinv x hx hcx with hcl | hmem
    · exact hcl n hn hcn
    · simp at hmem
  | _ + 1, [], visited, count, _, hinv, x, hx, hcx, n, hn, hcn => by
    simp only [bfs] at hx ⊢
    rcases hinv x hx hcx with hcl | hmem
    · exact hcl n hn hcn
    · simp at hmem
  | fuel + 1, p :: rest, visited, count, hfuel, hinv, x, hx, hcx, n, hn, hcn => by
    simp only [bfs] at hx ⊢
    set vq := (neighbors p).foldl (visitStep g colour) (visited, []) with hvq
    have hcard : vq.1.card = visited.card + vq.2.length := by
      have := foldl_visit_card g colour (neighbors p) (visited, [])
      simpa using this
    have hd1 : (Finset.univ \ visited).card = 36 - visited.card := by
      rw [Finset.card_sdiff (Finset.subset_univ _), card_univ_pos]
    have hd2 : (Finset.univ \ vq.1).card = 36 - vq.1.card := by
      rw [Finset.card_sdiff (Finset.subset_univ _), card_univ_pos]
    have hle2 : vq.1.card ≤ 36 := card_univ_pos ▸ Finset.card_le_univ _
    have hfuel' :
        2 * (Finset.univ \ vq.1).card + (rest ++ vq.2).length ≤ fuel := by
      simp only [List.length_append]
      simp only [List.length_cons] at hfuel
      omega
    have hinv' : ClosedInv g colour (rest ++ vq.2) vq.1 := by
      intro y hy hcy
      rcases foldl_visit_fst_new g colour (neighbors p) (visited, []) y hy with
        hyv | hyq
      · rcases hinv y hyv hcy with hcl | hmem
        · exact Or.inl fun m hm hcm =>
            foldl_visit_fst_subset g colour (neighbors p) (visited, [])
              (hcl m hm hcm)
        · rcases List.mem_cons.mp hmem with rfl | hmem
          · exact Or.inl fun m hm hcm =>
              foldl_visit_complete g colour (neighbors y) (visited, []) m hm hcm
          · exact Or.inr (List.mem_append_left _ hmem)
      · exact Or.inr (List.mem_append_right _ hyq)
    exact bfs_closed g colour fuel (rest ++ vq.2) vq.1 (count + 1)
      hfuel' hinv' x hx hcx n hn hcn

lemma bfs_run (g : Board) (p : Pos) (V : Finset Pos)
    (hp : p ∉ V)
    (hV : ∀ x ∈ V, ∀ y ∈ component g x, y ∈ V) :
    ((bfs g (g p.1 p.2) 100 [p] (insert p V) 0).2 : Set Pos) =
        ↑V ∪ component g p ∧
    (bfs g (g p.1 p.2) 100 [p] (insert p V) 0).1 = (component g p).ncard := by
  have hfuel :
      2 * (Finset.univ \ insert p V).card + ([p] : List Pos).length ≤ 100 := by
    have h1 : (Finset.univ \ insert p V).card ≤ 36 :=
      card_univ_pos ▸ Finset.card_le_univ _
    simp only [List.length_singleton]
    omega
  have hq0 : ∀ x ∈ ([p] : List Pos), ConnV g (g p.1 p.2) p x := by
    intro x hx
    rw [List.mem_singleton] at hx
    subst hx
    exact Relation.ReflTransGen.refl
  have hsub := bfs_visited_subset g (g p.1 p.2) 100 [p] (insert p V) 0
  have hsound := bfs_visited_sound g (g p.1 p.2) p 100 [p] (insert p V) 0 hq0
  have hinv : ClosedInv g (g p.1 p.2) [p] (insert p V) := by
    intro x hx hcx
    rcases Finset.mem_insert.mp hx with rfl | hxV
    · exact Or.inr (List.mem_singleton.mpr rfl)
    · refine Or.inl fun n hn hcn => ?_
      have hstep : n ∈ component g x :=
        Relation.ReflTransGen.single ⟨hn, by rw [hcn, hcx]⟩
      exact Finset.mem_insert_of_mem (hV x hxV n hstep)
  have hclosed := bfs_closed g (g p.1 p.2) 100 [p] (insert p V) 0 hfuel hinv
  have hcomp_sub : ∀ y ∈ component g p,
      y ∈ (bfs g (g p.1 p.2) 100 [p] (insert p V) 0).2 := by
    intro y hy
    induction hy with
    | refl => exact hsub (Finset.mem_insert_self _ _)
    | tail hxy hstep ih =>
      rename_i x y'
      have hcx : g x.1 x.2 = g p.1 p.2 := mem_component_val hxy
      exact hclosed x ih hcx y' hstep.1 hstep.2
  have hset : ((bfs g (g p.1 p.2) 100 [p] (insert p V) 0).2 : Set Pos) =
      ↑V ∪ component g p := by
    ext x
    simp only [Finset.coe_union, Set.mem_union, Finset.mem_coe]
    constructor
    · intro hx
      rcases hsound x hx with hx' | hx'
      · rcases Finset.mem_insert.mp hx' with rfl | hxV
        · exact Or.inr (self_mem_component g x)
        · exact Or.inl hxV
      · exact Or.inr hx'
    · rintro (hx | hx)
      · exact hsub (Finset.mem_insert_of_mem hx)
      · exact hcomp_sub x hx
  refine ⟨hset, ?_⟩
  have hcnt := bfs_count g (g p.1 p.2) 100 [p] (insert p V) 0 hfuel
  have hins : (insert p V).card = V.card + 1 := Finset.card_insert_of_not_mem hp
  have hdisj : Disjoint (↑V : Set Pos) (component g p) := by
    rw [Set.disjoint_left]
    intro a haV hacomp
    have heq : component g a = component g p := component_eq_of_mem hacomp
    have hpa : p ∈ component g a := heq ▸ self_mem_component g p
    exact hp (hV a haV p hpa)
  have hcard2 : (bfs g (g p.1 p.2) 100 [p] (insert p V) 0).2.card =
      V.card + (component g p).ncard := by
    have h1 : ((bfs g (g p.1 p.2) 100 [p] (insert p V) 0).2 : Set Pos).ncard =
        (bfs g (g p.1 p.2) 100 [p] (insert p V) 0).2.card :=
      Set.ncard_coe_Finset _
    rw [hset] at h1
    rw [← h1, Set.ncard_union_eq hdisj, Set.ncard_coe_Finset]
  simp only [List.length_singleton] at hcnt
  omega

lemma scanMoves_iff (g : Board) :
    ∀ (rest : List Pos) (visited : Finset Pos),
      (∀ x ∈ visited, ∀ y ∈ component g x, y ∈ visited) →
      (∀ x ∈ visited, (component g x).ncard ≤ 2) →
      (scanMoves g rest visited = true ↔
        ∃ p ∈ rest, 3 ≤ (component g p).ncard)
  | [], visited, _, _ => by simp [scanMoves]
  | p :: rest, visited, hcl, hsm => by
    by_cases hpv : p ∈ visited
    · rw [scanMoves, if_pos hpv, scanMoves_iff g rest visited hcl hsm]
      constructor
      · rintro ⟨q, hq, h3⟩
        exact ⟨q, List.mem_cons_of_mem _ hq, h3⟩
      · rintro ⟨q, hq, h3⟩
        rcases List.mem_cons.mp hq with rfl | hq
        · have := hsm q hpv
          omega
        · exact ⟨q, hq, h3⟩
    · obtain ⟨hset, hcnt⟩ := bfs_run g p visited hpv hcl
      have hset' : ∀ z : Pos,
          z ∈ (bfs g (g p.1 p.2) 100 [p] (insert p visited) 0).2 ↔
            z ∈ visited ∨ z ∈ component g p := by
        intro z
        constructor
        · intro hz
          have : z ∈ ((bfs g (g p.1 p.2) 100 [p]
              (insert p visited) 0).2 : Set Pos) := hz
          rw [hset] at this
          simpa using this
        · intro hz
          have : z ∈ (↑visited ∪ component g p : Set Pos) := by
            simpa using hz
          rw [← hset] at this
          simpa using this
      rw [scanMoves, if_neg hpv]
      by_cases h3 : 3 ≤ (bfs g (g p.1 p.2) 100 [p] (insert p visited) 0).1
      · rw [if_pos h3]
        simp only [true_iff]
        exact ⟨p, List.mem_cons_self _ _, by omega⟩
      · rw [if_neg h3]
        have hp2 : (component g p).ncard ≤ 2 := by omega
        have hcl' : ∀ x ∈ (bfs g (g p.1 p.2) 100 [p] (insert p visited) 0).2,
            ∀ y ∈ component g x,
              y ∈ (bfs g (g p.1 p.2) 100 [p] (insert p visited) 0).2 := by
          intro x hx y hy
          rcases (hset' x).mp hx with hxv | hxc
          · exact (hset' y).mpr (Or.inl (hcl x hxv y hy))
          · have heq : component g x = component g p := component_eq_of_mem hxc
            exact (hset' y).mpr (Or.inr (heq ▸ hy))
        have hsm' : ∀ x ∈ (bfs g (g p.1 p.2) 100 [p] (insert p visited) 0).2,
            (component g x).ncard ≤ 2 := by
          intro x hx
          rcases (hset' x).mp hx with hxv | hxc
          · exact hsm x hxv
          · rw [component_eq_of_mem hxc]
            exact hp2
        rw [scanMoves_iff g rest _ hcl' hsm']
        constructor
        · rintro ⟨q, hq, hq3⟩
          exact ⟨q, List.mem_cons_of_mem _ hq, hq3⟩
        · rintro ⟨q, hq, hq3⟩
          rcases List.mem_cons.mp hq with rfl | hq
          · omega
          · exact ⟨q, hq, hq3⟩

lemma mem_allPositions : ∀ p : Pos, p ∈ allPositions := by decide

/-- Full functional characterisation of hasAvailableMoves: it returns true
exactly when some cell's same-valued 4-connected component has size at
least 3 (null cells included, compared by value). -/
lemma hasAvailableMoves_iff (g : Board) :
    hasAvailableMoves g = true ↔ ∃ p : Pos, 3 ≤ (component g p).ncard := by
  unfold hasAvailableMoves
  rw [scanMoves_iff g allPositions ∅ (by simp) (by simp)]
  constructor
  · rintro ⟨p, _, h⟩
    exact ⟨p, h⟩
  · rintro ⟨p, h⟩
    exact ⟨p, mem_allPositions p, h⟩

/-- A 6 by 6 checkerboard of the two colours v and w by coordinate parity. -/
def checkerBoard (v w : Colour) : Board :=
  fun r c => if (r.val + c.val) % 2 = 0 then some v else some w

/-- C2: on every fully coloured 6 by 6 grid, hasAvailableMoves returns true iff
the grid contains a 4-connected same-colour component of size at least 3; in
particular it is true on every all-one-colour grid and false on every 2-colour
checkerboard. -/
theorem hasAvailableMoves_spec :
    (∀ g : Board, (∀ r c, (g r c).isSome) →
      (hasAvailableMoves g = true ↔ ∃ p : Pos, 3 ≤ (component g p).ncard)) ∧
    (∀ v : Colour, hasAvailableMoves (fun _ _ => some v) = true) ∧
    (∀ v w : Colour, v ≠ w → hasAvailableMoves (checkerBoard v w) = false) := by
  refine ⟨fun g _ => hasAvailableMoves_iff g, by decide, by decide⟩

/-- Witness for C2: the characterisation applied at an all-red grid and at a
red and blue checkerboard, with the hypotheses checked concretely. -/
theorem hasAvailableMoves_spec_witness :
    (hasAvailableMoves (fun _ _ => some Colour.red) = true ↔
      ∃ p : Pos, 3 ≤ (component (fun _ _ => some Colour.red) p).ncard) ∧
    hasAvailableMoves (fun _ _ => some Colour.red) = true ∧
    hasAvailableMoves (checkerBoard Colour.red Colour.blue) = false :=
  ⟨hasAvailableMoves_spec.1 (fun _ _ => some Colour.red) (by decide),
   hasAvailableMoves_spec.2.1 Colour.red,
   hasAvailableMoves_spec.2.2 Colour.red Colour.blue (by decide)⟩

/-- C10: hasAvailableMoves compares cells by raw value, so null (Empty) cells
match each other: a 4-connected group of at least 3 Empty cells makes it
return true, regardless of the colours anywhere else on the grid. -/
theorem hasAvailableMoves_null_group (g : Board) (p q r : Pos)
    (hpq : p ≠ q) (hpr : p ≠ r) (hqr : q ≠ r)
    (hp : g p.1 p.2 = none) (hq : g q.1 q.2 = none) (hr : g r.1 r.2 = none)
    (hadj1 : q ∈ neighbors p) (hadj2 : r ∈ neighbors q) :
    hasAvailableMoves g = true := by
  rw [hasAvailableMoves_iff]
  refine ⟨p, ?_⟩
  have hq' : q ∈ component g p :=
    Relation.ReflTransGen.single ⟨hadj1, by rw [hq, hp]⟩
  have hr' : r ∈ component g p :=
    hq'.tail ⟨hadj2, by rw [hr, hp]⟩
  have hsub : ({p, q, r} : Set Pos) ⊆ component g p := by
    intro x hx
    simp only [Set.mem_insert_iff, Set.mem_singleton_iff] at hx
    rcases hx with rfl | rfl | rfl
    · exact self_mem_component g x
    · exact hq'
    · exact hr'
  have h3 : ({p, q, r} : Set Pos).ncard = 3 := by
    rw [Set.ncard_insert_of_not_mem (by simp [hpq, hpr]), Set.ncard_pair hqr]
  calc (3 : ℕ) = ({p, q, r} : Set Pos).ncard := h3.symm
    _ ≤ (component g p).ncard := Set.ncard_le_ncard hsub (Set.toFinite _)

/-- A grid whose top-left three cells are Empty while every coloured cell
alternates red and blue, so no 3 same-coloured tiles are connected. -/
def nullGroupBoard : Board :=
  fun r c =>
    if r.val = 0 ∧ c.val ≤ 2 then none
    else if (r.val + c.val) % 2 = 0 then some Colour.red else some Colour.blue

/-- Witness for C10: the Empty 3-group of nullGroupBoard makes
hasAvailableMoves return true although its coloured cells alternate. -/
theorem hasAvailableMoves_null_group_witness :
    hasAvailableMoves nullGroupBoard = true :=
  hasAvailableMoves_null_group nullGroupBoard (0, 0) (0, 1) (0, 2)
    (by decide) (by decide) (by decide) (by decide) (by decide) (by decide)
    (by decide) (by decide)

/-- The descending row list r = 5, 4, ..., 0 scanned by collapseBoard. -/
def rowsDown : List ℕ := [5, 4, 3, 2, 1, 0]

/-- One column pass of collapseBoard over the column encoded as a list indexed
by row: scan rows bottom-up with a write pointer, moving each non-null cell
down to the pointer row (write to pointer, null the source) and decrementing
the pointer. -/
def collapseColAux : List ℕ → List Cell → ℤ → List Cell
  | [], col, _ => col
  | r :: rest, col, pointer =>
    match col.getD r none with
    | none => collapseColAux rest col pointer
    | some v =>
      let col' :=
        if (r : ℤ) = pointer then col
        else (col.set pointer.toNat (some v)).set r none
      collapseColAux rest col' (pointer - 1)

/-- Collapse one column, the body of the outer column loop of collapseBoard. -/
def collapseColumnList (col : List Cell) : List Cell :=
  collapseColAux rowsDown col 5

/-- The cells of one column of the board, top to bottom. -/
def colList (a : Fin 6 → Cell) : List Cell :=
  [a 0, a 1, a 2, a 3, a 4, a 5]

/-- Embedding of collapseBoard (script.js): compact every column downward,
each column independently. -/
def collapseBoard (g : Board) : Board :=
  fun r c => (collapseColumnList (colList fun i => g i c)).getD r.val none

/-- The specified shape of a collapsed column: Empty padding on top of the
non-empty cells in their original top-to-bottom order. -/
def collapsedSpecL (col : List Cell) : List Cell :=
  let ne := col.filter fun x => x.isSome
  List.replicate (col.length - ne.length) none ++ ne

lemma collapseColumnList_eq6 (x0 x1 x2 x3 x4 x5 : Cell) :
    collapseColumnList [x0, x1, x2, x3, x4, x5] =
      collapsedSpecL [x0, x1, x2, x3, x4, x5] := by
  rcases x0 with _ | v0 <;> rcases x1 with _ | v1 <;>
    rcases x2 with _ | v2 <;> rcases x3 with _ | v3 <;>
    rcases x4 with _ | v4 <;> rcases x5 with _ | v5 <;> rfl

lemma exists_six {col : List Cell} (h : col.length = 6) :
    ∃ x0 x1 x2 x3 x4 x5 : Cell, col = [x0, x1, x2, x3, x4, x5] := by
  rcases col with _ | ⟨x0, _ | ⟨x1, _ | ⟨x2, _ | ⟨x3, _ | ⟨x4, _ | ⟨x5, _ | ⟨x6, t⟩⟩⟩⟩⟩⟩⟩ <;>
    simp_all

lemma collapseColumnList_eq {col : List Cell} (h : col.length = 6) :
    collapseColumnList col = collapsedSpecL col := by
  obtain ⟨x0, x1, x2, x3, x4, x5, rfl⟩ := exists_six h
  exact collapseColumnList_eq6 x0 x1 x2 x3 x4 x5

lemma filter_replicate_none (n : ℕ) :
    (List.replicate n (none : Cell)).filter (fun x => x.isSome) = [] := by
  induction n with
  | zero => rfl
  | succ n ih => simp [List.replicate_succ, ih]

lemma filter_collapsedSpecL (col : List Cell) :
    (collapsedSpecL col).filter (fun x => x.isSome) =
      col.filter fun x => x.isSome := by
  unfold collapsedSpecL
  rw [List.filter_append, filter_replicate_none]
  rw [List.filter_eq_self.mpr fun x hx => List.of_mem_filter hx]
  rfl

lemma length_collapsedSpecL (col : List Cell) :
    (collapsedSpecL col).length = col.length := by
  unfold collapsedSpecL
  have hle : (col.filter fun x => x.isSome).length ≤ col.length :=
    List.length_filter_le _ _
  simp only [List.length_append, List.length_replicate]
  omega

lemma collapsedSpecL_idem (col : List Cell) :
    collapsedSpecL (collapsedSpecL col) = collapsedSpecL col := by
  conv_lhs => rw [collapsedSpecL]
  rw [filter_collapsedSpecL, length_collapsedSpecL]
  rfl

lemma collapseColumnList_idem {col : List Cell} (h : col.length = 6) :
    collapseColumnList (collapseColumnList col) = collapseColumnList col := by
  have h1 : collapseColumnList col = collapsedSpecL col :=
    collapseColumnList_eq h
  have hlen : (collapseColumnList col).length = 6 := by
    rw [h1, length_collapsedSpecL, h]
  rw [collapseColumnList_eq hlen, h1, collapsedSpecL_idem]

lemma colList_length (a : Fin 6 → Cell) : (colList a).length = 6 := rfl

lemma colList_getD {col : List Cell} (h : col.length = 6) :
    colList (fun i => col.getD i.val none) = col := by
  obtain ⟨x0, x1, x2, x3, x4, x5, rfl⟩ := exists_six h
  rfl

/-- C3: collapseBoard compacts each column independently, leaving the column's
non-empty cells at the bottom in their original top-to-bottom order below the
Empty cells, and collapseBoard is idempotent. -/
theorem collapseBoard_spec :
    (∀ (g : Board) (c : Fin 6),
      colList (fun r => collapseBoard g r c) =
        List.replicate
          (6 - ((colList fun r => g r c).filter fun x => x.isSome).length)
          none ++ (colList fun r => g r c).filter fun x => x.isSome) ∧
    ∀ g : Board, collapseBoard (collapseBoard g) = collapseBoard g := by
  have hcol : ∀ (g : Board) (c : Fin 6),
      colList (fun r => collapseBoard g r c) =
        collapseColumnList (colList fun i => g i c) := by
    intro g c
    have hlen : (collapseColumnList (colList fun i => g i c)).length = 6 := by
      rw [collapseColumnList_eq (colList_length _), length_collapsedSpecL]
      exact colList_length _
    exact colList_getD hlen
  constructor
  · intro g c
    rw [hcol g c, collapseColumnList_eq (colList_length _)]
    simp [collapsedSpecL, colList_length]
  · intro g
    funext r c
    show (collapseColumnList (colList fun i => collapseBoard g i c)).getD
        r.val none = _
    rw [hcol g c, collapseColumnList_idem (colList_length _)]
    rfl

/-- A full-grid regeneration: every cell receives the colour that the random
oracle gen yields for regeneration attempt n, so no cell is null. -/
def regenBoard (gen : ℕ → Fin 6 → Fin 6 → Colour) (n : ℕ) : Board :=
  fun r c => some (gen n r c)

/-- Embedding of the do-while loop of shuffleBoard (script.js): regenerate the
whole grid, increment attempts, break once attempts exceeds 50, otherwise loop
while no move is available. Returns the final board and attempts counter. -/
def shuffleLoop (gen : ℕ → Fin 6 → Fin 6 → Colour) (attempts : ℕ) :
    Board × ℕ :=
  let b := regenBoard gen attempts
  if h : 50 < attempts + 1 then (b, attempts + 1)
  else if hasAvailableMoves b then (b, attempts + 1)
  else shuffleLoop gen (attempts + 1)
termination_by 51 - attempts
decreasing_by omega

/-- Embedding of shuffleBoard (script.js): the capped regeneration loop run
from attempts = 0. -/
def shuffleBoard (gen : ℕ → Fin 6 → Fin 6 → Colour) : Board × ℕ :=
  shuffleLoop gen 0

lemma shuffleLoop_spec (gen : ℕ → Fin 6 → Fin 6 → Colour) (k : ℕ) :
    ∀ a : ℕ, 51 - a ≤ k → a ≤ 50 →
      (shuffleLoop gen a).2 ≤ 51 ∧
      ∃ n, (shuffleLoop gen a).1 = regenBoard gen n := by
  induction k with
  | zero =>
    intro a hk ha
    omega
  | succ k ih =>
    intro a hk ha
    rw [shuffleLoop]
    split_ifs with h1 h2
    · exact ⟨by omega, a, rfl⟩
    · exact ⟨by omega, a, rfl⟩
    · exact ih (a + 1) (by omega) (by omega)

/-- C4 (amended): shuffleBoard always terminates with the attempts counter at
most 51, and when it returns every cell of the grid holds a colour from the
palette (no Empty cells), whether or not a board with an available move was
found. -/
theorem shuffleBoard_spec (gen : ℕ → Fin 6 → Fin 6 → Colour) :
    (shuffleBoard gen).2 ≤ 51 ∧
    ∀ r c, ((shuffleBoard gen).1 r c).isSome = true := by
  obtain ⟨h1, n, h2⟩ := shuffleLoop_spec gen 51 0 (by omega) (by omega)
  refine ⟨h1, fun r c => ?_⟩
  rw [show shuffleBoard gen = shuffleLoop gen 0 from rfl, h2]
  rfl

/-- A random oracle that always produces a red and blue checkerboard, on which
no move is ever available. -/
def checkerGen : ℕ → Fin 6 → Fin 6 → Colour :=
  fun _ r c => if (r.val + c.val) % 2 = 0 then Colour.red else Colour.blue

lemma hasMoves_checker_false :
    hasAvailableMoves (checkerBoard Colour.red Colour.blue) = false := by
  decide

lemma regen_checker (n : ℕ) :
    regenBoard checkerGen n = checkerBoard Colour.red Colour.blue := by
  funext r c
  simp only [regenBoard, checkerGen, checkerBoard]
  split_ifs <;> rfl

lemma shuffleLoop_checker (k : ℕ) :
    ∀ a : ℕ, 51 - a ≤ k → a ≤ 50 →
      shuffleLoop checkerGen a = (checkerBoard Colour.red Colour.blue, 51) := by
  induction k with
  | zero =>
    intro a hk ha
    omega
  | succ k ih =>
    intro a hk ha
    rw [shuffleLoop]
    split_ifs with h1 h2
    · have ha' : a = 50 := by omega
      subst ha'
      rw [regen_checker]
    · rw [regen_checker, hasMoves_checker_false] at h2
      simp at h2
    · exact ih (a + 1) (by omega) (by omega)

/-- Counterexample for C4 as stated: with an oracle that always regenerates a
checkerboard, shuffleBoard performs 51 full-grid regeneration attempts (its
attempts counter ends at 51), not at most 50. -/
theorem shuffleBoard_attempts_51 :
    (shuffleBoard checkerGen).2 = 51 ∧ ¬ (shuffleBoard checkerGen).2 ≤ 50 := by
  have h := shuffleLoop_checker 51 0 (by omega) (by omega)
  rw [show shuffleBoard checkerGen = shuffleLoop checkerGen 0 from rfl, h]
  exact ⟨rfl, by omega⟩

/-- The direction of a step between consecutive path cells: row delta then
column delta, modelling the dx and dy string that script.js stores in
lastDirection. -/
def stepDir (prev curr : Pos) : ℤ × ℤ :=
  ((curr.1.val : ℤ) - prev.1.val, (curr.2.val : ℤ) - prev.2.val)

/-- Embedding of updateTurnCount (script.js): recompute the turn count and the
last direction from scratch along the consecutive pairs of the path. -/
def updateTurnCountFn (path : List Pos) : ℕ × Option (ℤ × ℤ) :=
  (path.zip path.tail).foldl
    (fun acc pq =>
      let dir := stepDir pq.1 pq.2
      let bump : Bool :=
        match acc.2 with
        | none => false
        | some d => if d = dir then false else true
      ((if bump then acc.1 + 1 else acc.1), some dir))
    (0, none)

/-- The global mutable game state of script.js touched by the selection and
commit logic. -/
structure GState where
  board : Board
  isDrawing : Bool
  selectedPath : List Pos
  currentColour : Cell
  lastRow : ℤ
  lastCol : ℤ
  lastDirection : Option (ℤ × ℤ)
  turnCount : ℕ
  score : ℤ
  chainCount : ℕ
  maxChain : ℕ
  timeLeft : ℤ
  maxTimeForBar : ℤ
  bestScore : ℤ
  bestChainValue : ℕ
deriving DecidableEq

/-- Embedding of startSelection (script.js): guarded only by the round clock,
it unconditionally restarts the selection at the pressed tile. -/
def startSelection (p : Pos) (s : GState) : GState :=
  if s.timeLeft ≤ 0 then s
  else
    { s with
      isDrawing := true
      selectedPath := [p]
      currentColour := s.board p.1 p.2
      lastRow := (p.1.val : ℤ)
      lastCol := (p.2.val : ℤ)
      lastDirection := none
      turnCount := 0 }

/-- Embedding of handleEnter (script.js): while drawing, extend the selection
subject to the colour, single-step-backtrack and adjacency rules. -/
def handleEnter (p : Pos) (s : GState) : GState :=
  if s.isDrawing = false then s
  else if s.board p.1 p.2 ≠ s.currentColour then s
  else if p ∈ s.selectedPath then
    if (s.selectedPath.indexOf p : ℤ) = (s.selectedPath.length : ℤ) - 2 then
      let path' := s.selectedPath.dropLast
      let tc := updateTurnCountFn path'
      let lastPos := path'.getLast?.getD p
      { s with
        selectedPath := path'
        turnCount := tc.1
        lastDirection := tc.2
        lastRow := (lastPos.1.val : ℤ)
        lastCol := (lastPos.2.val : ℤ) }
    else s
  else if |(p.1.val : ℤ) - s.lastRow| + |(p.2.val : ℤ) - s.lastCol| ≠ 1 then s
  else
    let dir : ℤ × ℤ := ((p.1.val : ℤ) - s.lastRow, (p.2.val : ℤ) - s.lastCol)
    let bump : Bool :=
      match s.lastDirection with
      | none => false
      | some d => if d = dir then false else true
    { s with
      turnCount := if bump then s.turnCount + 1 else s.turnCount
      lastDirection := some dir
      lastRow := (p.1.val : ℤ)
      lastCol := (p.2.val : ℤ)
      selectedPath := s.selectedPath ++ [p] }

/-- Null one committed cell of the board (board[rr][cc] = null in the commit
loop of finishSelection). -/
def clearCell (b : Board) (p : Pos) : Board :=
  fun r c => if r = p.1 ∧ c = p.2 then none else b r c

/-- Embedding of the synchronous part of finishSelection (script.js): on a
path of length at least 3 it commits, adding the calculated score, awarding
bonus time for length at least 5, updating maxChain and the best stats,
nulling every committed cell and clearing the selection state; on a shorter
path it abandons, only clearing the selection state. The collapse, refill and
chain-count increment that script.js schedules on a timeout are separate. -/
def finishSelection (s : GState) : GState :=
  if s.isDrawing = false then s
  else if 3 ≤ s.selectedPath.length then
    let pathLength := s.selectedPath.length
    let gained := calculateScore pathLength s.turnCount s.chainCount
    let score' := s.score + gained
    let timeLeft' :=
      if 5 ≤ pathLength then s.timeLeft + ((pathLength : ℤ) - 4) else s.timeLeft
    let maxTimeForBar' :=
      if 5 ≤ pathLength ∧ s.maxTimeForBar < timeLeft' then timeLeft'
      else s.maxTimeForBar
    let maxChain' := if s.maxChain < pathLength then pathLength else s.maxChain
    let bestScore' := if s.bestScore < score' then score' else s.bestScore
    let bestChainValue' :=
      if s.bestChainValue < maxChain' then maxChain' else s.bestChainValue
    { s with
      isDrawing := false
      board := s.selectedPath.foldl clearCell s.board
      score := score'
      timeLeft := timeLeft'
      maxTimeForBar := maxTimeForBar'
      maxChain := maxChain'
      bestScore := bestScore'
      bestChainValue := bestChainValue'
      selectedPath := []
      currentColour := none
      lastDirection := none
      turnCount := 0 }
  else
    { s with
      isDrawing := false
      selectedPath := []
      currentColour := none
      lastDirection := none
      turnCount := 0 }

/-- Selection states reachable from a startSelection on a live clock followed
by any sequence of handleEnter steps: the states with a drag in progress. -/
inductive SelReachable : GState → Prop
  | start (p : Pos) (s : GState) (h : ¬ s.timeLeft ≤ 0) :
      SelReachable (startSelection p s)
  | step (p : Pos) (s : GState) (h : SelReachable s) :
      SelReachable (handleEnter p s)

/-- Manhattan distance 1, the adjacency handleEnter accepts. -/
def adjStep (a b : Pos) : Prop :=
  |(b.1.val : ℤ) - a.1.val| + |(b.2.val : ℤ) - a.2.val| = 1

lemma zip_tail_concat :
    ∀ (l : List Pos) (q p : Pos), l.getLast? = some q →
      (l ++ [p]).zip ((l ++ [p]).tail) = (l.zip l.tail) ++ [(q, p)]
  | [], q, p, h => by simp at h
  | [x], q, p, h => by
    simp at h
    subst h
    rfl
  | x :: y :: t, q, p, h => by
    have ih := zip_tail_concat (y :: t) q p (by
      rwa [List.getLast?_cons_cons] at h)
    show (x, y) :: (((y :: t) ++ [p]).zip (((y :: t) ++ [p]).tail)) =
      ((x, y) :: ((y :: t).zip (y :: t).tail)) ++ [(q, p)]
    rw [ih]
    rfl

lemma updateTurnCountFn_concat (path : List Pos) (q p : Pos)
    (h : path.getLast? = some q) :
    updateTurnCountFn (path ++ [p]) =
      ((if (match (updateTurnCountFn path).2 with
            | none => false
            | some d => if d = stepDir q p then false else true) then
          (updateTurnCountFn path).1 + 1
        else (updateTurnCountFn path).1),
       some (stepDir q p)) := by
  unfold updateTurnCountFn
  rw [zip_tail_concat path q p h, List.foldl_append]
  rfl

lemma indexOf_lt_length_pos {p : Pos} :
    ∀ {l : List Pos}, p ∈ l → l.indexOf p < l.length
  | [], h => absurd h (List.not_mem_nil _)
  | x :: t, h => by
    rw [List.indexOf_cons]
    by_cases hx : x = p
    · simp [hx]
    · have hb : (x == p) = false := by simp [hx]
      rw [hb]
      simp only [Bool.cond_false, List.length_cons]
      have hp : p ∈ t := by
        rcases List.mem_cons.mp h with rfl | hp
        · exact absurd rfl hx
        · exact hp
      exact Nat.succ_lt_succ (indexOf_lt_length_pos hp)

lemma indexOf_eq_of_get? :
    ∀ {l : List Pos} {i : ℕ} {p : Pos},
      l.Nodup → l.get? i = some p → l.indexOf p = i
  | [], i, p, _, h => by simp at h
  | x :: t, 0, p, _, h => by
    simp only [List.get?_cons_zero, Option.some.injEq] at h
    subst h
    rw [List.indexOf_cons]
    simp
  | x :: t, i + 1, p, hnd, h => by
    simp only [List.get?_cons_succ] at h
    have hpt : p ∈ t := List.get?_mem h
    have hne : p ≠ x := by
      rintro rfl
      exact (List.nodup_cons.mp hnd).1 hpt
    rw [List.indexOf_cons]
    have hb : (x == p) = false := by simp [Ne.symm hne]
    rw [hb]
    simp only [Bool.cond_false]
    rw [indexOf_eq_of_get? (List.nodup_cons.mp hnd).2 h]

/-- The selection invariant: every reachable drag state is drawing and carries
a nonempty duplicate-free path of cells of the active colour, consecutive
cells adjacent, with lastRow and lastCol at the path's last cell, and the
incrementally maintained turnCount and lastDirection agreeing with the full
recomputation updateTurnCount over the current path. -/
lemma sel_invariant {s : GState} (h : SelReachable s) :
    s.isDrawing = true ∧
    s.selectedPath ≠ [] ∧
    s.selectedPath.Nodup ∧
    (∀ q ∈ s.selectedPath, s.board q.1 q.2 = s.currentColour) ∧
    List.Chain' adjStep s.selectedPath ∧
    (∃ q, s.selectedPath.getLast? = some q ∧
      s.lastRow = (q.1.val : ℤ) ∧ s.lastCol = (q.2.val : ℤ)) ∧
    (s.turnCount, s.lastDirection) = updateTurnCountFn s.selectedPath := by
  induction h with
  | start p s h =>
    rw [startSelection, if_neg h]
    refine ⟨rfl, by simp, by simp, ?_, ?_, ⟨p, rfl, rfl, rfl⟩, rfl⟩
    · intro q hq
      simp only [List.mem_singleton] at hq
      subst hq
      rfl
    · simp
  | step p s _ ih =>
    obtain ⟨hD, hne, hnd, hcol, hchain, ⟨last, hlast, hrow, hcolv⟩, htc⟩ := ih
    rw [handleEnter]
    rw [if_neg (by simp [hD])]
    by_cases hc : s.board p.1 p.2 ≠ s.currentColour
    · rw [if_pos hc]
      exact ⟨hD, hne, hnd, hcol, hchain, ⟨last, hlast, hrow, hcolv⟩, htc⟩
    · rw [if_neg hc]
      push_neg at hc
      by_cases hm : p ∈ s.selectedPath
      · rw [if_pos hm]
        by_cases hidx : (s.selectedPath.indexOf p : ℤ) =
            (s.selectedPath.length : ℤ) - 2
        · rw [if_pos hidx]
          have hlt : s.selectedPath.indexOf p < s.selectedPath.length :=
            indexOf_lt_length_pos hm
          have hlen2 : 2 ≤ s.selectedPath.length := by omega
          have hne' : s.selectedPath.dropLast ≠ [] := by
            have : s.selectedPath.dropLast.length =
                s.selectedPath.length - 1 := List.length_dropLast _
            intro hnil
            rw [hnil] at this
            simp at this
            omega
          obtain ⟨q, hq⟩ : ∃ q, s.selectedPath.dropLast.getLast? = some q := by
            cases hgl : s.selectedPath.dropLast.getLast? with
            | none =>
              exact absurd (List.getLast?_eq_none_iff.mp hgl) hne'
            | some q => exact ⟨q, rfl⟩
          refine ⟨hD, hne', hnd.sublist (List.dropLast_sublist _), ?_, ?_,
            ⟨q, ?_, ?_, ?_⟩, ?_⟩
          · intro x hx
            exact hcol x ((List.dropLast_sublist _).subset hx)
          · exact hchain.init
          · exact hq
          · simp [hq]
          · simp [hq]
          · rfl
        · rw [if_neg hidx]
          exact ⟨hD, hne, hnd, hcol, hchain, ⟨last, hlast, hrow, hcolv⟩, htc⟩
      · rw [if_neg hm]
        by_cases hadj : |(p.1.val : ℤ) - s.lastRow| +
            |(p.2.val : ℤ) - s.lastCol| ≠ 1
        · rw [if_pos hadj]
          exact ⟨hD, hne, hnd, hcol, hchain, ⟨last, hlast, hrow, hcolv⟩, htc⟩
        · rw [if_neg hadj]
          push_neg at hadj
          have hstep : adjStep last p := by
            rw [adjStep, ← hrow, ← hcolv]
            exact hadj
          refine ⟨hD, by simp, ?_, ?_, ?_, ⟨p, ?_, rfl, rfl⟩, ?_⟩
          · simp [List.nodup_append, hnd, hm]
          · intro x hx
            rcases List.mem_append.mp hx with hx | hx
            · exact hcol x hx
            · rw [List.mem_singleton.mp hx]
              exact hc
          · rw [List.chain'_append]
            refine ⟨hchain, List.chain'_singleton _, ?_⟩
            intro x hx y hy
            rw [hlast, Option.mem_some_iff] at hx
            simp only [List.head?_cons, Option.mem_some_iff] at hy
            subst hx
            subst hy
            exact hstep
          · exact List.getLast?_concat _
          · rw [updateTurnCountFn_concat s.selectedPath last p hlast, ← htc]
            have hdir : stepDir last p =
                ((p.1.val : ℤ) - s.lastRow, (p.2.val : ℤ) - s.lastCol) := by
              rw [stepDir, hrow, hcolv]
            rw [hdir]

lemma get?_indexOf_pos :
    ∀ {l : List Pos} {p : Pos}, p ∈ l → l.get? (l.indexOf p) = some p
  | [], p, h => absurd h (List.not_mem_nil _)
  | x :: t, p, h => by
    rw [List.indexOf_cons]
    by_cases hx : x = p
    · subst hx
      simp
    · have hb : (x == p) = false := by simp [hx]
      rw [hb]
      simp only [Bool.cond_false, List.get?_cons_succ]
      have hp : p ∈ t := by
        rcases List.mem_cons.mp h with rfl | hp
        · exact absurd rfl hx
        · exact hp
      exact get?_indexOf_pos hp

lemma adjStep_symm {a b : Pos} (h : adjStep a b) : adjStep b a := by
  rw [adjStep, abs_sub_comm ((a.1.val : ℤ)) _, abs_sub_comm ((a.2.val : ℤ)) _]
  exact h

/-- C7: for every reachable selection state, the incrementally maintained
turnCount of handleEnter equals the count computed by the from-scratch
recomputation updateTurnCount over the current path. -/
theorem turnCount_agrees {s : GState} (h : SelReachable s) :
    s.turnCount = (updateTurnCountFn s.selectedPath).1 :=
  congrArg Prod.fst (sel_invariant h).2.2.2.2.2.2

/-- An all-red board used by the concrete witnesses. -/
def demoBoard : Board := fun _ _ => some Colour.red

/-- A quiescent base state before any selection, used by the witnesses. -/
def demoBase : GState :=
  { board := demoBoard
    isDrawing := false
    selectedPath := []
    currentColour := none
    lastRow := 0
    lastCol := 0
    lastDirection := none
    turnCount := 0
    score := 0
    chainCount := 1
    maxChain := 0
    timeLeft := 60
    maxTimeForBar := 60
    bestScore := 0
    bestChainValue := 0 }

/-- A reachable two-cell selection along the top row of the all-red board. -/
def demoSel : GState :=
  handleEnter (0, 1) (startSelection (0, 0) demoBase)

lemma demoSel_reachable : SelReachable demoSel :=
  SelReachable.step _ _ (SelReachable.start _ _ (by decide))

/-- Witness for C7 at a concrete reachable two-cell selection. -/
theorem turnCount_agrees_witness :
    demoSel.turnCount = (updateTurnCountFn demoSel.selectedPath).1 :=
  turnCount_agrees demoSel_reachable

/-- C5: in a reachable Selecting state, handleEnter leaves the path unchanged
when the entered cell's colour differs from the active colour, when the cell
is not adjacent (Manhattan distance not 1) to the path's last position, or
when the cell occurs in the path at an index other than the second-to-last;
and entering the second-to-last cell shortens the path by exactly one element
(never lengthening it) and recomputes the turn count from the shortened
path. -/
theorem handleEnter_rules {s : GState} (hr : SelReachable s) (p : Pos) :
    (s.board p.1 p.2 ≠ s.currentColour → handleEnter p s = s) ∧
    (∀ l0, s.selectedPath.getLast? = some l0 →
      ¬ adjStep l0 p → handleEnter p s = s) ∧
    (∀ i : ℕ, s.selectedPath.get? i = some p →
      (i : ℤ) ≠ (s.selectedPath.length : ℤ) - 2 → handleEnter p s = s) ∧
    (2 ≤ s.selectedPath.length →
      s.selectedPath.get? (s.selectedPath.length - 2) = some p →
      (handleEnter p s).selectedPath = s.selectedPath.dropLast ∧
      (handleEnter p s).selectedPath.length + 1 = s.selectedPath.length ∧
      (handleEnter p s).turnCount =
        (updateTurnCountFn s.selectedPath.dropLast).1) := by
  obtain ⟨hD, hne, hnd, hcol, hchain, ⟨last, hlast, hrow, hcolv⟩, htc⟩ :=
    sel_invariant hr
  refine ⟨?_, ?_, ?_, ?_⟩
  · intro hc
    rw [handleEnter, if_neg (by simp [hD]), if_pos hc]
  · intro l0 hl0 hnadj0
    have hl0last : l0 = last := Option.some.inj (hl0 ▸ hlast)
    have hnadj : ¬ adjStep last p := hl0last ▸ hnadj0
    rw [handleEnter, if_neg (by simp [hD])]
    by_cases hc : s.board p.1 p.2 ≠ s.currentColour
    · rw [if_pos hc]
    · rw [if_neg hc]
      by_cases hm : p ∈ s.selectedPath
      · rw [if_pos hm]
        by_cases hidx : (s.selectedPath.indexOf p : ℤ) =
            (s.selectedPath.length : ℤ) - 2
        · exfalso
          have hlt : s.selectedPath.indexOf p < s.selectedPath.length :=
            indexOf_lt_length_pos hm
          have hidxn : s.selectedPath.indexOf p =
              s.selectedPath.length - 2 := by omega
          have hlen2 : 2 ≤ s.selectedPath.length := by omega
          have hget2 : s.selectedPath.get? (s.selectedPath.length - 2) =
              some p := by
            rw [← hidxn]
            exact get?_indexOf_pos hm
          have hlastlast : s.selectedPath.getLast hne = last := by
            have := List.getLast?_eq_getLast_of_ne_nil hne
            exact Option.some.inj (this ▸ hlast)
          have hsplit : s.selectedPath.dropLast ++ [last] = s.selectedPath := by
            rw [← hlastlast]
            exact List.dropLast_append_getLast hne
          have hdlast : s.selectedPath.dropLast.getLast? = some p := by
            have hdl : s.selectedPath.dropLast.length =
                s.selectedPath.length - 1 := List.length_dropLast _
            rw [List.getLast?_eq_getElem?, hdl]
            have hidx2 : s.selectedPath.length - 1 - 1 =
                s.selectedPath.length - 2 := by omega
            rw [hidx2]
            have hlt2 : s.selectedPath.length - 2 <
                s.selectedPath.dropLast.length := by omega
            rw [List.getElem?_dropLast, if_pos (by omega)]
            rw [← List.get?_eq_getElem?]
            exact hget2
          have hchain2 : List.Chain' adjStep
              (s.selectedPath.dropLast ++ [last]) := by
            rw [hsplit]
            exact hchain
          rcases List.chain'_append.mp hchain2 with ⟨-, -, hrel⟩
          have : adjStep p last := by
            apply hrel p _ last
            · simp
            · rw [hdlast]
              rfl
          exact hnadj (adjStep_symm this)
        · rw [if_neg hidx]
      · rw [if_neg hm]
        have hcond : |(p.1.val : ℤ) - s.lastRow| +
            |(p.2.val : ℤ) - s.lastCol| ≠ 1 := by
          rw [hrow, hcolv]
          exact hnadj
        rw [if_pos hcond]
  · intro i hi hiz
    rw [handleEnter, if_neg (by simp [hD])]
    by_cases hc : s.board p.1 p.2 ≠ s.currentColour
    · rw [if_pos hc]
    · rw [if_neg hc]
      have hm : p ∈ s.selectedPath := List.get?_mem hi
      rw [if_pos hm]
      have hieq : s.selectedPath.indexOf p = i := indexOf_eq_of_get? hnd hi
      rw [if_neg (by rw [hieq]; exact hiz)]
  · intro hlen2 hget
    have hm : p ∈ s.selectedPath := List.get?_mem hget
    have hc : ¬ s.board p.1 p.2 ≠ s.currentColour := by
      push_neg
      exact hcol p hm
    have hieq : s.selectedPath.indexOf p = s.selectedPath.length - 2 :=
      indexOf_eq_of_get? hnd hget
    have hidx : (s.selectedPath.indexOf p : ℤ) =
        (s.selectedPath.length : ℤ) - 2 := by
      rw [hieq]
      omega
    rw [handleEnter, if_neg (by simp [hD]), if_neg hc, if_pos hm, if_pos hidx]
    refine ⟨rfl, ?_, rfl⟩
    have := List.length_dropLast s.selectedPath
    simp only [this]
    omega

/-- Witness for C5: on the concrete reachable two-cell selection, entering the
second-to-last cell shortens the path by exactly one and recomputes the turn
count from the shortened path. -/
theorem handleEnter_rules_witness :
    (handleEnter (0, 0) demoSel).selectedPath =
      demoSel.selectedPath.dropLast ∧
    (handleEnter (0, 0) demoSel).selectedPath.length + 1 =
      demoSel.selectedPath.length ∧
    (handleEnter (0, 0) demoSel).turnCount =
      (updateTurnCountFn demoSel.selectedPath.dropLast).1 :=
  (handleEnter_rules demoSel_reachable (0, 0)).2.2.2 (by decide) (by decide)

lemma foldl_clearCell :
    ∀ (l : List Pos) (b : Board) (r c : Fin 6),
      (l.foldl clearCell b) r c = if (r, c) ∈ l then none else b r c
  | [], b, r, c => by simp
  | p :: t, b, r, c => by
    rw [List.foldl_cons, foldl_clearCell t (clearCell b p) r c]
    by_cases h : (r, c) ∈ t
    · simp [h]
    · rw [if_neg h, clearCell]
      by_cases hrc : (r, c) = p
      · rw [if_pos (by rw [← hrc]; exact ⟨rfl, rfl⟩)]
        rw [if_pos (List.mem_cons.mpr (Or.inl hrc))]
      · have hnp : ¬ (r = p.1 ∧ c = p.2) := by
          rintro ⟨h1, h2⟩
          apply hrc
          rw [h1, h2]
        rw [if_neg hnp, if_neg (by simp [hrc, h])]

/-- C6: finishSelection in the Selecting state commits exactly when the path
has length at least 3, adding calculateScore(length, turnCount, chainCount)
to the score and setting each committed cell to Empty; otherwise it abandons,
leaving the score and every grid cell unchanged and clearing only the
transient selection state. -/
theorem finishSelection_spec {s : GState} (hD : s.isDrawing = true) :
    (3 ≤ s.selectedPath.length →
      (finishSelection s).score =
        s.score + calculateScore s.selectedPath.length s.turnCount
          s.chainCount ∧
      (∀ r c, (finishSelection s).board r c =
        if (r, c) ∈ s.selectedPath then none else s.board r c) ∧
      (finishSelection s).selectedPath = [] ∧
      (finishSelection s).isDrawing = false) ∧
    (s.selectedPath.length < 3 →
      finishSelection s =
        { s with
          isDrawing := false
          selectedPath := []
          currentColour := none
          lastDirection := none
          turnCount := 0 }) := by
  constructor
  · intro h3
    rw [finishSelection, if_neg (by simp [hD]), if_pos h3]
    exact ⟨rfl, fun r c => foldl_clearCell _ _ r c, rfl, rfl⟩
  · intro h3
    rw [finishSelection, if_neg (by simp [hD]), if_neg (by omega)]

/-- A Selecting state holding a straight three-cell red path on the all-red
board, with the round clock already expired. -/
def threePathState : GState :=
  { demoBase with
    isDrawing := true
    selectedPath := [(0, 0), (0, 1), (0, 2)]
    currentColour := some Colour.red
    lastRow := 0
    lastCol := 2
    lastDirection := some (0, 1)
    turnCount := 0
    timeLeft := 0 }

/-- Witness for C6: committing the concrete three-cell path adds exactly
calculateScore(3, 0, 1) = 90 points and empties the committed cells. -/
theorem finishSelection_spec_witness :
    (finishSelection threePathState).score =
      threePathState.score +
        calculateScore threePathState.selectedPath.length
          threePathState.turnCount threePathState.chainCount ∧
    (finishSelection threePathState).board 0 0 = none := by
  obtain ⟨hs, hb, -, -⟩ :=
    (@finishSelection_spec threePathState rfl).1 (by decide)
  refine ⟨hs, ?_⟩
  rw [hb 0 0]
  decide

/-- Counterexample for C8 as stated: calling begin (startSelection) while a
selection is already active on a live clock does not leave the state
unchanged: it discards the current path and restarts at the new cell. -/
theorem startSelection_not_noop :
    ¬ startSelection (2, 2) demoSel = demoSel := by
  decide

/-- C8 (amended): extend and end while Idle change nothing, and begin after
the round clock has expired changes nothing; but begin while a selection is
already active is not a no-op: it discards the current path and restarts the
selection at the entered cell, so at most one selection is active at a
time. -/
theorem invalid_state_ops (s : GState) (p : Pos) :
    (s.isDrawing = false → handleEnter p s = s) ∧
    (s.isDrawing = false → finishSelection s = s) ∧
    (s.timeLeft ≤ 0 → startSelection p s = s) ∧
    (¬ s.timeLeft ≤ 0 → (startSelection p s).selectedPath = [p] ∧
      (startSelection p s).isDrawing = true) := by
  refine ⟨?_, ?_, ?_, ?_⟩
  · intro h
    rw [handleEnter, if_pos h]
  · intro h
    rw [finishSelection, if_pos h]
  · intro h
    rw [startSelection, if_pos h]
  · intro h
    rw [startSelection, if_neg h]
    exact ⟨rfl, rfl⟩

/-- Witness for C8 amended at concrete states: extend and end on an idle state
are no-ops, begin on an expired clock is a no-op, and begin on a live clock
with an active selection restarts the path at the entered cell. -/
theorem invalid_state_ops_witness :
    handleEnter (0, 0) demoBase = demoBase ∧
    finishSelection demoBase = demoBase ∧
    startSelection (0, 0) threePathState = threePathState ∧
    (startSelection (2, 2) demoSel).selectedPath = [(2, 2)] :=
  ⟨(invalid_state_ops demoBase (0, 0)).1 rfl,
   (invalid_state_ops demoBase (0, 0)).2.1 rfl,
   (invalid_state_ops threePathState (0, 0)).2.2.1 (by decide),
   ((invalid_state_ops demoSel (2, 2)).2.2.2 (by decide)).1⟩

lemma calcScore301 : calculateScore 3 0 1 = 90 := by
  norm_num [calculateScore, jsRound]

lemma finish_threePath_score :
    (finishSelection threePathState).score ≠ threePathState.score := by
  have hscore : (finishSelection threePathState).score =
      threePathState.score + calculateScore 3 0 1 := rfl
  rw [hscore, calcScore301]
  omega

/-- Counterexample for C9 as stated: in a round whose clock has reached 0 with
a selection still active, ending the selection still commits: the score and
the grid change after the round has ended. -/
theorem ended_commit_changes_state :
    threePathState.timeLeft = 0 ∧
    threePathState.isDrawing = true ∧
    (finishSelection threePathState).score ≠ threePathState.score ∧
    (finishSelection threePathState).board ≠ threePathState.board :=
  ⟨rfl, rfl, finish_threePath_score, by decide⟩

/-- C9 (amended): once the round clock has expired, no new selection can begin
(startSelection is a no-op) and extend never changes score or grid; but the
round state is not fully frozen: a selection still active at expiry commits on
end, changing the score and the grid. -/
theorem ended_round_rules :
    (∀ (s : GState) (p : Pos), s.timeLeft ≤ 0 → startSelection p s = s) ∧
    (∀ (s : GState) (p : Pos), (handleEnter p s).score = s.score ∧
      (handleEnter p s).board = s.board) ∧
    (∃ s : GState, s.timeLeft ≤ 0 ∧ s.isDrawing = true ∧
      (finishSelection s).score ≠ s.score) := by
  refine ⟨?_, ?_, ⟨threePathState, by decide, rfl, finish_threePath_score⟩⟩
  · intro s p h
    rw [startSelection, if_pos h]
  · intro s p
    rw [handleEnter]
    split_ifs <;> exact ⟨rfl, rfl⟩

/-- Witness for C9 amended: beginning a selection on the expired three-path
state is a no-op. -/
theorem ended_round_rules_witness :
    startSelection (0, 0) threePathState = threePathState :=
  ended_round_rules.1 threePathState (0, 0) (by decide)

end ColorChain
